import Mathlib

/-!
Verification of the 2D Ising Monte Carlo sweep kernel of this repository.

The repository builds `compdismatter/wasm/ising.c` (a single exported C
function `mcmove` plus lattice/RNG scaffolding) to a native shared object
and a WebAssembly side module; the build rules live in `src/Makefile`.
The C source body itself is not present under `src/`, so the kernel is
modelled here from the specification: the lattice is a flat row-major
buffer of spins, `mcmove` checks its two preconditions at entry and then
performs exactly L² random-site Metropolis proposals, each proposal
computing the periodic-boundary local energy change and accepting or
rejecting the flip by the Metropolis criterion.
-/

namespace Ising

/-- Modelled from the spec: error taxonomy of the sweep entry point
(`InvalidSize` for a buffer length that is not a perfect square ≥ 1,
`InvalidTemperature` for temperature ≤ 0). The C file `ising.c` is absent
from `src/`. -/
inductive IsingError where
  | InvalidSize
  | InvalidTemperature
deriving DecidableEq

/-- Modelled from the spec: the spin stored at row-major index `i*L+j` of
the flat lattice buffer (out-of-range reads yield the junk value 0; the
kernel never performs them on valid calls). -/
def spinAt (σ : List ℤ) (L i j : ℕ) : ℤ := σ.getD (i * L + j) 0

/-- Modelled from the spec: the sum of the four periodic-boundary neighbor
spins of site `(i, j)`, with row and column indices taken modulo `L`
(`(i + L - 1) % L` is `i - 1` modulo `L` in natural-number arithmetic). -/
def nbSum (σ : List ℤ) (L i j : ℕ) : ℤ :=
  spinAt σ L ((i + L - 1) % L) j + spinAt σ L ((i + 1) % L) j +
    spinAt σ L i ((j + L - 1) % L) + spinAt σ L i ((j + 1) % L)

/-- Modelled from the spec: the local energy change from flipping site
`(i, j)`, ΔE = 2 · spin(i,j) · (neighbor sum). -/
def deltaE (σ : List ℤ) (L i j : ℕ) : ℤ := 2 * spinAt σ L i j * nbSum σ L i j

/-- Local energy change at flat row-major site index `k` (`i = k / L`,
`j = k % L`). -/
def deltaEAt (σ : List ℤ) (L k : ℕ) : ℤ := deltaE σ L (k / L) (k % L)

/-- Modelled from the spec: negate the spin at flat index `k` in place. -/
def flipAt (σ : List ℤ) (k : ℕ) : List ℤ := σ.set k (-(σ.getD k 0))

/-- Twice the total lattice energy: Σ over all sites of
−spin(i,j)·(neighbor sum). -/
def energyTwice (σ : List ℤ) (L : ℕ) : ℤ :=
  ∑ i ∈ Finset.range L, ∑ j ∈ Finset.range L, -(spinAt σ L i j * nbSum σ L i j)

/-- Total lattice energy: Σ over all sites of −spin(i,j)·(neighbor sum)/2. -/
def energy (σ : List ℤ) (L : ℕ) : ℚ := (energyTwice σ L : ℚ) / 2

/-- Modelled from the spec: the buffer length is valid when it is a perfect
square ≥ 1; the lattice side is then `Nat.sqrt` of the length. -/
def validSize (n : ℕ) : Prop := 1 ≤ n ∧ Nat.sqrt n * Nat.sqrt n = n

instance (n : ℕ) : Decidable (validSize n) := by
  unfold validSize
  infer_instance

/-- Modelled from the spec: the Metropolis acceptance predicate at
temperature `T` (β = 1/T) for local energy change `d`, given the uniform
draw `r` of this proposal: accept unconditionally when `d ≤ 0`, otherwise
accept iff `r < exp (−β·d)`. -/
def accepts (T : ℝ) (d : ℤ) (r : ℝ) : Prop :=
  d ≤ 0 ∨ r < Real.exp (-(1 / T) * (d : ℝ))

/-- Modelled from the spec: one proposed single-site update at flat site
index `k` with acceptance draw `r`: on acceptance the site's spin is
negated in place, on rejection the lattice is left unchanged. -/
def proposalStep (L : ℕ) (T : ℝ) (σ : List ℤ) (k : ℕ) (r : ℝ) (σ' : List ℤ) : Prop :=
  (accepts T (deltaEAt σ L k) r ∧ σ' = flipAt σ k) ∨
    (¬ accepts T (deltaEAt σ L k) r ∧ σ' = σ)

/-- Modelled from the spec: `n` consecutive proposals, each consuming one
site draw (reduced modulo L² to select among the L² positions, sampling
with replacement) and one acceptance draw from the RNG streams. -/
def sweepRel (L : ℕ) (T : ℝ) (sites : ℕ → ℕ) (rs : ℕ → ℝ) :
    ℕ → List ℤ → List ℤ → Prop
  | 0, σ, σ' => σ' = σ
  | n + 1, σ, σ' =>
      ∃ τ, proposalStep L T σ (sites 0 % (L * L)) (rs 0) τ ∧
        sweepRel L T (fun m => sites (m + 1)) (fun m => rs (m + 1)) n τ σ'

/-- Modelled from the spec: the sweep entry point `mcmove`. It checks the
two preconditions once at call entry, before any lattice mutation: a buffer
length that is not a perfect square ≥ 1 is reported as `InvalidSize`, then
temperature ≤ 0 as `InvalidTemperature`; a rejected call leaves the lattice
unchanged. A valid call performs exactly L² proposals (L² = buffer length)
and returns no error. -/
def mcmoveRel (σ : List ℤ) (T : ℝ) (sites : ℕ → ℕ) (rs : ℕ → ℝ)
    (out : Option IsingError × List ℤ) : Prop :=
  (¬ validSize σ.length ∧ out = (some IsingError.InvalidSize, σ)) ∨
    (validSize σ.length ∧ T ≤ 0 ∧ out = (some IsingError.InvalidTemperature, σ)) ∨
      (validSize σ.length ∧ 0 < T ∧
        ∃ σ', sweepRel (Nat.sqrt σ.length) T sites rs σ.length σ σ' ∧ out = (none, σ'))

/-- Number of RNG draws consumed by one call to `mcmove`: a successful call
consumes one site draw and one acceptance draw per proposal (L² = buffer
length of each), a rejected call consumes none. -/
def consumed (e : Option IsingError) (σ : List ℤ) : ℕ :=
  match e with
  | none => σ.length
  | some _ => 0

/-- Modelled from the spec: `n` consecutive calls to `mcmove` at fixed
temperature, threading the RNG streams across calls (each successful call
advances both streams by the number of draws it consumed). -/
def runChain (T : ℝ) (sites : ℕ → ℕ) (rs : ℕ → ℝ) :
    ℕ → List ℤ → List ℤ → Prop
  | 0, σ, σ' => σ' = σ
  | n + 1, σ, σ' =>
      ∃ e τ, mcmoveRel σ T sites rs (e, τ) ∧
        runChain T (fun m => sites (m + consumed e σ)) (fun m => rs (m + consumed e σ))
          n τ σ'

/-- One zero-temperature-limit transition: either a rejection (lattice
unchanged) or an accepted flip whose local energy change is ≤ 0. -/
def downhillStep (L : ℕ) (σ σ' : List ℤ) : Prop :=
  σ' = σ ∨ ∃ k, k < σ.length ∧ deltaEAt σ L k ≤ 0 ∧ σ' = flipAt σ k

/-- A chain of `n` zero-temperature-limit transitions (a sweep in which
only ΔE ≤ 0 moves are accepted). -/
def downhillChain (L : ℕ) : ℕ → List ℤ → List ℤ → Prop
  | 0, σ, σ' => σ' = σ
  | n + 1, σ, σ' => ∃ τ, downhillStep L σ τ ∧ downhillChain L n τ σ'

/-- Reduction of an integer index to `[0, L)` by integer modulus, used to
state the spec's "indices taken modulo L" with explicit modulo
arithmetic on ℤ. -/
def intModIdx (L : ℕ) (z : ℤ) : ℕ := (z % (L : ℤ)).toNat

/-- The neighbor sum written exactly as the spec words it:
S = spin(i−1,j) + spin(i+1,j) + spin(i,j−1) + spin(i,j+1) with the index
arithmetic carried out in ℤ and reduced modulo L. -/
def nbSumSpec (σ : List ℤ) (L i j : ℕ) : ℤ :=
  spinAt σ L (intModIdx L ((i : ℤ) - 1)) j + spinAt σ L (intModIdx L ((i : ℤ) + 1)) j +
    spinAt σ L i (intModIdx L ((j : ℤ) - 1)) + spinAt σ L i (intModIdx L ((j : ℤ) + 1))

/-- The spin-domain invariant: every lattice element is exactly +1 or −1. -/
def spinsValid (σ : List ℤ) : Prop := ∀ x ∈ σ, x = 1 ∨ x = -1

instance (σ : List ℤ) : Decidable (spinsValid σ) := by
  unfold spinsValid
  infer_instance

/-- Periodic neighbor sum of an abstract spin field `g` (the lattice read
through `spinAt` is one such field). -/
def nSum (L : ℕ) (g : ℕ → ℕ → ℤ) (i j : ℕ) : ℤ :=
  g ((i + L - 1) % L) j + g ((i + 1) % L) j + g i ((j + L - 1) % L) + g i ((j + 1) % L)

/-- Twice the total energy of an abstract spin field. -/
def e2 (L : ℕ) (g : ℕ → ℕ → ℤ) : ℤ :=
  ∑ i ∈ Finset.range L, ∑ j ∈ Finset.range L, -(g i j * nSum L g i j)

/-- Sum over all vertical periodic bonds (each site paired with the site
one row below it). -/
def vSum (L : ℕ) (g : ℕ → ℕ → ℤ) : ℤ :=
  ∑ i ∈ Finset.range L, ∑ j ∈ Finset.range L, g i j * g ((i + 1) % L) j

/-- Sum over all horizontal periodic bonds (each site paired with the site
one column to its right). -/
def hSum (L : ℕ) (g : ℕ → ℕ → ℤ) : ℤ :=
  ∑ i ∈ Finset.range L, ∑ j ∈ Finset.range L, g i j * g i ((j + 1) % L)

lemma index_lt {L a b : ℕ} (ha : a < L) (hb : b < L) : a * L + b < L * L := by
  calc a * L + b < a * L + L := by omega
  _ = (a + 1) * L := by ring
  _ ≤ L * L := Nat.mul_le_mul_right L ha

lemma index_inj {L i j a b : ℕ} (hj : j < L) (hb : b < L)
    (h : i * L + j = a * L + b) : i = a ∧ j = b := by
  have hL : 0 < L := by omega
  have h1 : (i * L + j) / L = i := by
    rw [Nat.add_comm, Nat.add_mul_div_right _ _ hL, Nat.div_eq_of_lt hj]; omega
  have h2 : (a * L + b) / L = a := by
    rw [Nat.add_comm, Nat.add_mul_div_right _ _ hL, Nat.div_eq_of_lt hb]; omega
  have hia : i = a := by rw [← h1, h, h2]
  constructor
  · exact hia
  · subst hia; omega

lemma div_lt_side {L k : ℕ} (hk : k < L * L) : k / L < L :=
  Nat.div_lt_of_lt_mul (by omega)

lemma mod_lt_side {L k : ℕ} (hk : k < L * L) : k % L < L := by
  have hL : 0 < L := by
    rcases Nat.eq_zero_or_pos L with h | h
    · subst h; omega
    · exact h
  exact Nat.mod_lt _ hL

lemma succ_mod_eq {L i : ℕ} (hi : i < L) :
    (i + 1) % L = if i + 1 = L then 0 else i + 1 := by
  rcases Nat.lt_or_ge (i + 1) L with h | h
  · rw [Nat.mod_eq_of_lt h, if_neg (by omega)]
  · have : i + 1 = L := by omega
    rw [this, Nat.mod_self, if_pos rfl]

lemma pred_mod_eq {L i : ℕ} (hL : 1 ≤ L) (hi : i < L) :
    (i + L - 1) % L = if i = 0 then L - 1 else i - 1 := by
  rcases Nat.eq_zero_or_pos i with h | h
  · subst h
    rw [if_pos rfl]
    simp only [Nat.zero_add]
    exact Nat.mod_eq_of_lt (by omega)
  · rw [if_neg (by omega)]
    have harr : i + L - 1 = (i - 1) + L := by omega
    rw [harr, Nat.add_mod_right, Nat.mod_eq_of_lt (by omega)]

lemma succ_mod_lt {L i : ℕ} (hL : 1 ≤ L) : (i + 1) % L < L := Nat.mod_lt _ (by omega)

lemma pred_mod_lt {L i : ℕ} (hL : 1 ≤ L) : (i + L - 1) % L < L := Nat.mod_lt _ (by omega)

lemma succ_mod_ne {L i : ℕ} (hL : 2 ≤ L) (hi : i < L) : (i + 1) % L ≠ i := by
  rw [succ_mod_eq hi]
  split <;> omega

lemma pred_mod_ne {L i : ℕ} (hL : 2 ≤ L) (hi : i < L) : (i + L - 1) % L ≠ i := by
  rw [pred_mod_eq (by omega) hi]
  split <;> omega

lemma succ_pred_mod {L i : ℕ} (hL : 1 ≤ L) (hi : i < L) :
    ((i + 1) % L + L - 1) % L = i := by
  rw [succ_mod_eq hi, pred_mod_eq hL (by split <;> omega)]
  split <;> split <;> omega

lemma pred_succ_mod {L i : ℕ} (hL : 1 ≤ L) (hi : i < L) :
    ((i + L - 1) % L + 1) % L = i := by
  rw [pred_mod_eq hL hi, succ_mod_eq (by split <;> omega)]
  split <;> split <;> omega

lemma intModIdx_sub_one {L i : ℕ} (hL : 1 ≤ L) (hi : i < L) :
    intModIdx L ((i : ℤ) - 1) = (i + L - 1) % L := by
  unfold intModIdx
  rcases Nat.eq_zero_or_pos i with h | h
  · subst h
    simp only [Nat.cast_zero]
    have h1 : ((0 : ℤ) - 1) % (L : ℤ) = (L : ℤ) - 1 := by
      have h2 : ((0 : ℤ) - 1) % (L : ℤ) = ((L : ℤ) - 1 + (-1) * (L : ℤ)) % (L : ℤ) := by
        ring_nf
      rw [h2, Int.add_mul_emod_self]
      exact Int.emod_eq_of_lt (by omega) (by omega)
    rw [h1, pred_mod_eq hL hi]
    split <;> omega
  · have h1 : ((i : ℤ) - 1) % (L : ℤ) = (i : ℤ) - 1 :=
      Int.emod_eq_of_lt (by omega) (by omega)
    rw [h1, pred_mod_eq hL hi, if_neg (by omega)]
    omega

lemma intModIdx_add_one {L i : ℕ} (hL : 1 ≤ L) (hi : i < L) :
    intModIdx L ((i : ℤ) + 1) = (i + 1) % L := by
  unfold intModIdx
  rcases Nat.lt_or_ge (i + 1) L with h | h
  · have h1 : ((i : ℤ) + 1) % (L : ℤ) = (i : ℤ) + 1 :=
      Int.emod_eq_of_lt (by omega) (by omega)
    rw [h1, Nat.mod_eq_of_lt h]
    omega
  · have hiL : i + 1 = L := by omega
    have h1 : ((i : ℤ) + 1) = (L : ℤ) := by omega
    rw [h1, Int.emod_self, hiL, Nat.mod_self]
    omega

lemma length_flipAt (σ : List ℤ) (k : ℕ) : (flipAt σ k).length = σ.length := by
  simp [flipAt]

lemma getD_flipAt_self {σ : List ℤ} {k : ℕ} (hk : k < σ.length) :
    (flipAt σ k).getD k 0 = -(σ.getD k 0) := by
  simp [flipAt, List.getD_eq_getElem?_getD, List.getElem?_set_self, hk]

lemma getD_flipAt_ne {σ : List ℤ} {k m : ℕ} (h : k ≠ m) :
    (flipAt σ k).getD m 0 = σ.getD m 0 := by
  simp [flipAt, List.getD_eq_getElem?_getD, List.getElem?_set_ne h]

lemma getD_mem {σ : List ℤ} {k : ℕ} (hk : k < σ.length) : σ.getD k 0 ∈ σ := by
  rw [List.getD_eq_getElem?_getD]
  simp [List.getElem?_eq_getElem hk]

lemma spinsValid_flipAt {σ : List ℤ} (h : spinsValid σ) (k : ℕ) :
    spinsValid (flipAt σ k) := by
  rcases Nat.lt_or_ge k σ.length with hk | hk
  · intro x hx
    rcases List.mem_or_eq_of_mem_set hx with hmem | heq
    · exact h x hmem
    · rcases h _ (getD_mem hk) with h1 | h1 <;> rw [heq, h1]
      · right; rfl
      · left; rfl
  · unfold flipAt
    rw [List.set_eq_of_length_le hk]
    exact h

lemma nbSum_eq_nSum (σ : List ℤ) (L i j : ℕ) : nbSum σ L i j = nSum L (spinAt σ L) i j := rfl

lemma energyTwice_eq_e2 (σ : List ℤ) (L : ℕ) : energyTwice σ L = e2 L (spinAt σ L) := rfl

lemma rotate_sum (L : ℕ) (f : ℕ → ℤ) :
    ∑ i ∈ Finset.range L, f ((i + 1) % L) = ∑ i ∈ Finset.range L, f i := by
  rcases Nat.eq_zero_or_pos L with hL | hL
  · subst hL; simp
  · refine Finset.sum_nbij' (fun a => (a + 1) % L) (fun b => (b + L - 1) % L)
      ?_ ?_ ?_ ?_ ?_
    · intro a _
      exact Finset.mem_range.mpr (succ_mod_lt hL)
    · intro b _
      exact Finset.mem_range.mpr (pred_mod_lt hL)
    · intro a ha
      exact succ_pred_mod hL (Finset.mem_range.mp ha)
    · intro b hb
      exact pred_succ_mod hL (Finset.mem_range.mp hb)
    · intro a _
      rfl

lemma rotate_sum_pred (L : ℕ) (f : ℕ → ℤ) :
    ∑ i ∈ Finset.range L, f ((i + L - 1) % L) = ∑ i ∈ Finset.range L, f i := by
  rcases Nat.eq_zero_or_pos L with hL | hL
  · subst hL; simp
  · have h := rotate_sum L (fun i => f ((i + L - 1) % L))
    rw [← h]
    apply Finset.sum_congr rfl
    intro i hi
    rw [succ_pred_mod hL (Finset.mem_range.mp hi)]

lemma e2_eq_edges (L : ℕ) (g : ℕ → ℕ → ℤ) : e2 L g = -2 * (vSum L g + hSum L g) := by
  have hA : ∀ j, ∑ i ∈ Finset.range L, g i j * g ((i + L - 1) % L) j =
      ∑ i ∈ Finset.range L, g i j * g ((i + 1) % L) j := by
    intro j
    rcases Nat.eq_zero_or_pos L with hL | hL
    · subst hL; simp
    · have h := rotate_sum L (fun a => g a j * g ((a + L - 1) % L) j)
      have h2 : ∑ i ∈ Finset.range L, g ((i + 1) % L) j * g ((((i + 1) % L) + L - 1) % L) j =
          ∑ i ∈ Finset.range L, g ((i + 1) % L) j * g i j := by
        apply Finset.sum_congr rfl
        intro i hi
        rw [succ_pred_mod hL (Finset.mem_range.mp hi)]
      rw [h2] at h
      rw [← h]
      apply Finset.sum_congr rfl
      intro i _
      ring
  have hC : ∀ i, ∑ j ∈ Finset.range L, g i j * g i ((j + L - 1) % L) =
      ∑ j ∈ Finset.range L, g i j * g i ((j + 1) % L) := by
    intro i
    rcases Nat.eq_zero_or_pos L with hL | hL
    · subst hL; simp
    · have h := rotate_sum L (fun a => g i a * g i ((a + L - 1) % L))
      have h2 : ∑ j ∈ Finset.range L, g i ((j + 1) % L) * g i ((((j + 1) % L) + L - 1) % L) =
          ∑ j ∈ Finset.range L, g i ((j + 1) % L) * g i j := by
        apply Finset.sum_congr rfl
        intro j hj
        rw [succ_pred_mod hL (Finset.mem_range.mp hj)]
      rw [h2] at h
      rw [← h]
      apply Finset.sum_congr rfl
      intro j _
      ring
  have expand : e2 L g =
      (∑ i ∈ Finset.range L, ∑ j ∈ Finset.range L, -(g i j * g ((i + L - 1) % L) j)) +
      (∑ i ∈ Finset.range L, ∑ j ∈ Finset.range L, -(g i j * g ((i + 1) % L) j)) +
      (∑ i ∈ Finset.range L, ∑ j ∈ Finset.range L, -(g i j * g i ((j + L - 1) % L))) +
      (∑ i ∈ Finset.range L, ∑ j ∈ Finset.range L, -(g i j * g i ((j + 1) % L))) := by
    unfold e2
    rw [← Finset.sum_add_distrib, ← Finset.sum_add_distrib, ← Finset.sum_add_distrib]
    apply Finset.sum_congr rfl
    intro i _
    rw [← Finset.sum_add_distrib, ← Finset.sum_add_distrib, ← Finset.sum_add_distrib]
    apply Finset.sum_congr rfl
    intro j _
    unfold nSum
    ring
  have swapA : ∑ i ∈ Finset.range L, ∑ j ∈ Finset.range L, -(g i j * g ((i + L - 1) % L) j) =
      -vSum L g := by
    rw [Finset.sum_comm]
    have hvSum : vSum L g =
        ∑ j ∈ Finset.range L, ∑ i ∈ Finset.range L, g i j * g ((i + 1) % L) j := by
      unfold vSum
      exact Finset.sum_comm
    rw [hvSum, ← Finset.sum_neg_distrib]
    apply Finset.sum_congr rfl
    intro j _
    rw [Finset.sum_neg_distrib, hA j]
  have swapB : ∑ i ∈ Finset.range L, ∑ j ∈ Finset.range L, -(g i j * g ((i + 1) % L) j) =
      -vSum L g := by
    unfold vSum
    rw [← Finset.sum_neg_distrib]
    apply Finset.sum_congr rfl
    intro i _
    rw [← Finset.sum_neg_distrib]
  have swapC : ∑ i ∈ Finset.range L, ∑ j ∈ Finset.range L, -(g i j * g i ((j + L - 1) % L)) =
      -hSum L g := by
    unfold hSum
    rw [← Finset.sum_neg_distrib]
    apply Finset.sum_congr rfl
    intro i _
    rw [Finset.sum_neg_distrib, hC i]
  have swapD : ∑ i ∈ Finset.range L, ∑ j ∈ Finset.range L, -(g i j * g i ((j + 1) % L)) =
      -hSum L g := by
    unfold hSum
    rw [← Finset.sum_neg_distrib]
    apply Finset.sum_congr rfl
    intro i _
    rw [← Finset.sum_neg_distrib]
  rw [expand, swapA, swapB, swapC, swapD]
  ring

lemma onePointSum (L : ℕ) (F : ℕ → ℤ) (p : ℕ) (hp : p < L)
    (hzero : ∀ i, i < L → i ≠ p → F i = 0) :
    ∑ i ∈ Finset.range L, F i = F p := by
  apply Finset.sum_eq_single_of_mem p (Finset.mem_range.mpr hp)
  intro b hb hbp
  exact hzero b (Finset.mem_range.mp hb) hbp

lemma twoPointSum (L : ℕ) (F : ℕ → ℤ) (p q : ℕ) (hp : p < L) (hq : q < L) (hpq : p ≠ q)
    (hzero : ∀ i, i < L → i ≠ p → i ≠ q → F i = 0) :
    ∑ i ∈ Finset.range L, F i = F p + F q := by
  rw [← Finset.add_sum_erase _ F (Finset.mem_range.mpr hp)]
  congr 1
  have hq' : q ∈ (Finset.range L).erase p :=
    Finset.mem_erase.mpr ⟨Ne.symm hpq, Finset.mem_range.mpr hq⟩
  rw [← Finset.add_sum_erase _ F hq']
  have hrest : ∑ i ∈ ((Finset.range L).erase p).erase q, F i = 0 := by
    apply Finset.sum_eq_zero
    intro i hi
    have h1 := Finset.mem_erase.mp hi
    have h2 := Finset.mem_erase.mp h1.2
    exact hzero i (Finset.mem_range.mp h2.2) h2.1 h1.1
  rw [hrest, add_zero]

lemma succ_mod_ne_of_ne_pred {L i a : ℕ} (hL : 1 ≤ L) (hi : i < L)
    (h : i ≠ (a + L - 1) % L) : (i + 1) % L ≠ a := by
  intro hc
  apply h
  rw [← succ_pred_mod hL hi, hc]

lemma vSum_flip (L a b : ℕ) (g g' : ℕ → ℕ → ℤ) (hL : 2 ≤ L) (ha : a < L) (hb : b < L)
    (hg' : ∀ i j, i < L → j < L → g' i j = if i = a ∧ j = b then -(g a b) else g i j) :
    vSum L g' = vSum L g - 2 * g a b * (g ((a + 1) % L) b + g ((a + L - 1) % L) b) := by
  have hL1 : 1 ≤ L := by omega
  have hane : (a + 1) % L ≠ a := succ_mod_ne hL ha
  have hpne : (a + L - 1) % L ≠ a := pred_mod_ne hL ha
  have key : vSum L g' - vSum L g =
      ∑ i ∈ Finset.range L, ∑ j ∈ Finset.range L,
        (g' i j * g' ((i + 1) % L) j - g i j * g ((i + 1) % L) j) := by
    unfold vSum
    rw [← Finset.sum_sub_distrib]
    apply Finset.sum_congr rfl
    intro i _
    rw [← Finset.sum_sub_distrib]
  have hzero_out : ∀ i, i < L → i ≠ a → i ≠ (a + L - 1) % L →
      (∑ j ∈ Finset.range L, (g' i j * g' ((i + 1) % L) j - g i j * g ((i + 1) % L) j)) = 0 := by
    intro i hi hia hip
    apply Finset.sum_eq_zero
    intro j hj
    have hj' := Finset.mem_range.mp hj
    have hsne : (i + 1) % L ≠ a := succ_mod_ne_of_ne_pred hL1 hi hip
    rw [hg' i j hi hj', if_neg (by tauto),
      hg' ((i + 1) % L) j (succ_mod_lt hL1) hj', if_neg (by tauto)]
    ring
  have hrows : ∑ i ∈ Finset.range L, (∑ j ∈ Finset.range L,
      (g' i j * g' ((i + 1) % L) j - g i j * g ((i + 1) % L) j)) =
      (∑ j ∈ Finset.range L, (g' a j * g' ((a + 1) % L) j - g a j * g ((a + 1) % L) j)) +
      (∑ j ∈ Finset.range L, (g' ((a + L - 1) % L) j * g' (((a + L - 1) % L + 1) % L) j -
        g ((a + L - 1) % L) j * g (((a + L - 1) % L + 1) % L) j)) :=
    twoPointSum L (fun i => ∑ j ∈ Finset.range L,
        (g' i j * g' ((i + 1) % L) j - g i j * g ((i + 1) % L) j))
      a ((a + L - 1) % L) ha (pred_mod_lt hL1) (Ne.symm hpne) hzero_out
  have hps : ((a + L - 1) % L + 1) % L = a := pred_succ_mod hL1 ha
  rw [hps] at hrows
  have hzeroa : ∀ j, j < L → j ≠ b →
      g' a j * g' ((a + 1) % L) j - g a j * g ((a + 1) % L) j = 0 := by
    intro j hj hjb
    rw [hg' a j ha hj, if_neg (by tauto),
      hg' ((a + 1) % L) j (succ_mod_lt hL1) hj, if_neg (by tauto)]
    ring
  have hrowa : ∑ j ∈ Finset.range L,
      (g' a j * g' ((a + 1) % L) j - g a j * g ((a + 1) % L) j) =
      g' a b * g' ((a + 1) % L) b - g a b * g ((a + 1) % L) b :=
    onePointSum L (fun j => g' a j * g' ((a + 1) % L) j - g a j * g ((a + 1) % L) j)
      b hb hzeroa
  have hzerop : ∀ j, j < L → j ≠ b →
      g' ((a + L - 1) % L) j * g' a j - g ((a + L - 1) % L) j * g a j = 0 := by
    intro j hj hjb
    rw [hg' ((a + L - 1) % L) j (pred_mod_lt hL1) hj, if_neg (by tauto),
      hg' a j ha hj, if_neg (by tauto)]
    ring
  have hrowp : ∑ j ∈ Finset.range L,
      (g' ((a + L - 1) % L) j * g' a j - g ((a + L - 1) % L) j * g a j) =
      g' ((a + L - 1) % L) b * g' a b - g ((a + L - 1) % L) b * g a b :=
    onePointSum L (fun j => g' ((a + L - 1) % L) j * g' a j - g ((a + L - 1) % L) j * g a j)
      b hb hzerop
  have hv1 : g' a b = -(g a b) := by
    rw [hg' a b ha hb, if_pos ⟨rfl, rfl⟩]
  have hv2 : g' ((a + 1) % L) b = g ((a + 1) % L) b := by
    rw [hg' ((a + 1) % L) b (succ_mod_lt hL1) hb, if_neg (by tauto)]
  have hv3 : g' ((a + L - 1) % L) b = g ((a + L - 1) % L) b := by
    rw [hg' ((a + L - 1) % L) b (pred_mod_lt hL1) hb, if_neg (by tauto)]
  rw [hrowa, hrowp, hv1, hv2, hv3] at hrows
  have final := key.trans hrows
  linear_combination final

lemma hSum_flip (L a b : ℕ) (g g' : ℕ → ℕ → ℤ) (hL : 2 ≤ L) (ha : a < L) (hb : b < L)
    (hg' : ∀ i j, i < L → j < L → g' i j = if i = a ∧ j = b then -(g a b) else g i j) :
    hSum L g' = hSum L g - 2 * g a b * (g a ((b + 1) % L) + g a ((b + L - 1) % L)) := by
  have hL1 : 1 ≤ L := by omega
  have hbne : (b + 1) % L ≠ b := succ_mod_ne hL hb
  have hqne : (b + L - 1) % L ≠ b := pred_mod_ne hL hb
  have key : hSum L g' - hSum L g =
      ∑ i ∈ Finset.range L, ∑ j ∈ Finset.range L,
        (g' i j * g' i ((j + 1) % L) - g i j * g i ((j + 1) % L)) := by
    unfold hSum
    rw [← Finset.sum_sub_distrib]
    apply Finset.sum_congr rfl
    intro i _
    rw [← Finset.sum_sub_distrib]
  have hzero_out : ∀ i, i < L → i ≠ a →
      (∑ j ∈ Finset.range L, (g' i j * g' i ((j + 1) % L) - g i j * g i ((j + 1) % L))) = 0 := by
    intro i hi hia
    apply Finset.sum_eq_zero
    intro j hj
    have hj' := Finset.mem_range.mp hj
    rw [hg' i j hi hj', if_neg (by tauto),
      hg' i ((j + 1) % L) hi (succ_mod_lt hL1), if_neg (by tauto)]
    ring
  have hrows : ∑ i ∈ Finset.range L, (∑ j ∈ Finset.range L,
      (g' i j * g' i ((j + 1) % L) - g i j * g i ((j + 1) % L))) =
      ∑ j ∈ Finset.range L, (g' a j * g' a ((j + 1) % L) - g a j * g a ((j + 1) % L)) :=
    onePointSum L (fun i => ∑ j ∈ Finset.range L,
        (g' i j * g' i ((j + 1) % L) - g i j * g i ((j + 1) % L))) a ha hzero_out
  have hzero_in : ∀ j, j < L → j ≠ b → j ≠ (b + L - 1) % L →
      g' a j * g' a ((j + 1) % L) - g a j * g a ((j + 1) % L) = 0 := by
    intro j hj hjb hjq
    have hsne : (j + 1) % L ≠ b := succ_mod_ne_of_ne_pred hL1 hj hjq
    rw [hg' a j ha hj, if_neg (by tauto),
      hg' a ((j + 1) % L) ha (succ_mod_lt hL1), if_neg (by tauto)]
    ring
  have hinner : ∑ j ∈ Finset.range L,
      (g' a j * g' a ((j + 1) % L) - g a j * g a ((j + 1) % L)) =
      (g' a b * g' a ((b + 1) % L) - g a b * g a ((b + 1) % L)) +
      (g' a ((b + L - 1) % L) * g' a (((b + L - 1) % L + 1) % L) -
        g a ((b + L - 1) % L) * g a (((b + L - 1) % L + 1) % L)) :=
    twoPointSum L (fun j => g' a j * g' a ((j + 1) % L) - g a j * g a ((j + 1) % L))
      b ((b + L - 1) % L) hb (pred_mod_lt hL1) (Ne.symm hqne) hzero_in
  have hps : ((b + L - 1) % L + 1) % L = b := pred_succ_mod hL1 hb
  rw [hps] at hinner
  have hv1 : g' a b = -(g a b) := by
    rw [hg' a b ha hb, if_pos ⟨rfl, rfl⟩]
  have hv2 : g' a ((b + 1) % L) = g a ((b + 1) % L) := by
    rw [hg' a ((b + 1) % L) ha (succ_mod_lt hL1), if_neg (by tauto)]
  have hv3 : g' a ((b + L - 1) % L) = g a ((b + L - 1) % L) := by
    rw [hg' a ((b + L - 1) % L) ha (pred_mod_lt hL1), if_neg (by tauto)]
  rw [hv1, hv2, hv3] at hinner
  have final := key.trans (hrows.trans hinner)
  linear_combination final

lemma e2_flip (L a b : ℕ) (g g' : ℕ → ℕ → ℤ) (hL : 2 ≤ L) (ha : a < L) (hb : b < L)
    (hg' : ∀ i j, i < L → j < L → g' i j = if i = a ∧ j = b then -(g a b) else g i j) :
    e2 L g' = e2 L g + 4 * g a b * nSum L g a b := by
  rw [e2_eq_edges, e2_eq_edges, vSum_flip L a b g g' hL ha hb hg',
    hSum_flip L a b g g' hL ha hb hg']
  unfold nSum
  ring

lemma flip_index_split {L k : ℕ} (hL : 1 ≤ L) : (k / L) * L + (k % L) = k :=
  Nat.div_add_mod' k L

lemma spinAt_flipAt {σ : List ℤ} {L k : ℕ} (hlen : σ.length = L * L) (hk : k < L * L)
    (i j : ℕ) (hi : i < L) (hj : j < L) :
    spinAt (flipAt σ k) L i j =
      if i = k / L ∧ j = k % L then -(spinAt σ L (k / L) (k % L)) else spinAt σ L i j := by
  have hL : 1 ≤ L := by
    rcases Nat.eq_zero_or_pos L with h | h
    · subst h; omega
    · exact h
  have hb : k % L < L := mod_lt_side hk
  have hidx : (k / L) * L + (k % L) = k := flip_index_split hL
  by_cases hc : i = k / L ∧ j = k % L
  · rw [if_pos hc]
    rcases hc with ⟨hc1, hc2⟩
    subst hc1
    subst hc2
    unfold spinAt
    rw [hidx, getD_flipAt_self (by rw [hlen]; exact hk)]
  · rw [if_neg hc]
    have hne : k ≠ i * L + j := by
      intro he
      apply hc
      exact index_inj hj hb (hidx.trans he).symm
    unfold spinAt
    exact getD_flipAt_ne hne

lemma energyTwice_flipAt {σ : List ℤ} {L k : ℕ} (hL : 2 ≤ L) (hlen : σ.length = L * L)
    (hk : k < L * L) :
    energyTwice (flipAt σ k) L = energyTwice σ L + 2 * deltaEAt σ L k := by
  have ha : k / L < L := div_lt_side hk
  have hb : k % L < L := mod_lt_side hk
  have hbridge : ∀ i j, i < L → j < L → spinAt (flipAt σ k) L i j =
      if i = k / L ∧ j = k % L then -(spinAt σ L (k / L) (k % L)) else spinAt σ L i j :=
    fun i j hi hj => spinAt_flipAt hlen hk i j hi hj
  have h := e2_flip L (k / L) (k % L) (spinAt σ L) (spinAt (flipAt σ k) L) hL ha hb hbridge
  rw [energyTwice_eq_e2, energyTwice_eq_e2, h, ← nbSum_eq_nSum]
  unfold deltaEAt deltaE
  ring

lemma energy_flipAt {σ : List ℤ} {L k : ℕ} (hL : 2 ≤ L) (hlen : σ.length = L * L)
    (hk : k < L * L) :
    energy (flipAt σ k) L = energy σ L + (deltaEAt σ L k : ℚ) := by
  unfold energy
  rw [energyTwice_flipAt hL hlen hk]
  push_cast
  ring

lemma deltaEAt_flipAt {σ : List ℤ} {L k : ℕ} (hL : 2 ≤ L) (hlen : σ.length = L * L)
    (hk : k < L * L) :
    deltaEAt (flipAt σ k) L k = -(deltaEAt σ L k) := by
  have hL1 : 1 ≤ L := by omega
  have ha : k / L < L := div_lt_side hk
  have hb : k % L < L := mod_lt_side hk
  have hbridge : ∀ i j, i < L → j < L → spinAt (flipAt σ k) L i j =
      if i = k / L ∧ j = k % L then -(spinAt σ L (k / L) (k % L)) else spinAt σ L i j :=
    fun i j hi hj => spinAt_flipAt hlen hk i j hi hj
  unfold deltaEAt deltaE nbSum
  rw [hbridge _ _ ha hb, if_pos ⟨rfl, rfl⟩,
    hbridge _ _ (pred_mod_lt hL1) hb, if_neg (fun hc => pred_mod_ne hL ha hc.1),
    hbridge _ _ (succ_mod_lt hL1) hb, if_neg (fun hc => succ_mod_ne hL ha hc.1),
    hbridge _ _ ha (pred_mod_lt hL1), if_neg (fun hc => pred_mod_ne hL hb hc.2),
    hbridge _ _ ha (succ_mod_lt hL1), if_neg (fun hc => succ_mod_ne hL hb hc.2)]
  ring

lemma deltaEAt_singleton (s : ℤ) : deltaEAt [s] 1 0 = 8 * s * s := by
  simp [deltaEAt, deltaE, nbSum, spinAt]
  ring

lemma energyTwice_singleton (s : ℤ) : energyTwice [s] 1 = -(4 * s * s) := by
  simp [energyTwice, nbSum, spinAt]
  ring

lemma sweepRel_zero_iff {L : ℕ} {T : ℝ} {sites : ℕ → ℕ} {rs : ℕ → ℝ} {σ σ' : List ℤ} :
    sweepRel L T sites rs 0 σ σ' ↔ σ' = σ := Iff.rfl

lemma sweepRel_succ_iff {L : ℕ} {T : ℝ} {sites : ℕ → ℕ} {rs : ℕ → ℝ} {n : ℕ}
    {σ σ' : List ℤ} :
    sweepRel L T sites rs (n + 1) σ σ' ↔
      ∃ τ, proposalStep L T σ (sites 0 % (L * L)) (rs 0) τ ∧
        sweepRel L T (fun m => sites (m + 1)) (fun m => rs (m + 1)) n τ σ' := Iff.rfl

lemma runChain_zero_iff {T : ℝ} {sites : ℕ → ℕ} {rs : ℕ → ℝ} {σ σ' : List ℤ} :
    runChain T sites rs 0 σ σ' ↔ σ' = σ := Iff.rfl

lemma runChain_succ_iff {T : ℝ} {sites : ℕ → ℕ} {rs : ℕ → ℝ} {n : ℕ} {σ σ' : List ℤ} :
    runChain T sites rs (n + 1) σ σ' ↔
      ∃ e τ, mcmoveRel σ T sites rs (e, τ) ∧
        runChain T (fun m => sites (m + consumed e σ)) (fun m => rs (m + consumed e σ))
          n τ σ' := Iff.rfl

lemma downhillChain_zero_iff {L : ℕ} {σ σ' : List ℤ} :
    downhillChain L 0 σ σ' ↔ σ' = σ := Iff.rfl

lemma downhillChain_succ_iff {L n : ℕ} {σ σ' : List ℤ} :
    downhillChain L (n + 1) σ σ' ↔
      ∃ τ, downhillStep L σ τ ∧ downhillChain L n τ σ' := Iff.rfl

lemma spinsValid_proposalStep {L : ℕ} {T : ℝ} {σ : List ℤ} {k : ℕ} {r : ℝ} {σ' : List ℤ}
    (h : proposalStep L T σ k r σ') (hs : spinsValid σ) : spinsValid σ' := by
  rcases h with ⟨_, h⟩ | ⟨_, h⟩
  · rw [h]
    exact spinsValid_flipAt hs k
  · rw [h]
    exact hs

lemma length_proposalStep {L : ℕ} {T : ℝ} {σ : List ℤ} {k : ℕ} {r : ℝ} {σ' : List ℤ}
    (h : proposalStep L T σ k r σ') : σ'.length = σ.length := by
  rcases h with ⟨_, h⟩ | ⟨_, h⟩
  · rw [h, length_flipAt]
  · rw [h]

lemma spinsValid_sweepRel {L : ℕ} {T : ℝ} :
    ∀ (n : ℕ) (sites : ℕ → ℕ) (rs : ℕ → ℝ) (σ σ' : List ℤ),
      sweepRel L T sites rs n σ σ' → spinsValid σ → spinsValid σ' := by
  intro n
  induction n with
  | zero =>
      intro sites rs σ σ' h hs
      rw [sweepRel_zero_iff.mp h]
      exact hs
  | succ n ih =>
      intro sites rs σ σ' h hs
      obtain ⟨τ, hstep, hrest⟩ := sweepRel_succ_iff.mp h
      exact ih _ _ _ _ hrest (spinsValid_proposalStep hstep hs)

lemma spinsValid_mcmoveRel {σ : List ℤ} {T : ℝ} {sites : ℕ → ℕ} {rs : ℕ → ℝ}
    {e : Option IsingError} {τ : List ℤ} (h : mcmoveRel σ T sites rs (e, τ))
    (hs : spinsValid σ) : spinsValid τ := by
  rcases h with ⟨_, h⟩ | ⟨_, _, h⟩ | ⟨_, _, σ'', hsw, h⟩
  · simp only [Prod.mk.injEq] at h
    rw [h.2]
    exact hs
  · simp only [Prod.mk.injEq] at h
    rw [h.2]
    exact hs
  · simp only [Prod.mk.injEq] at h
    rw [h.2]
    exact spinsValid_sweepRel _ _ _ _ _ hsw hs

lemma spinsValid_runChain {T : ℝ} :
    ∀ (n : ℕ) (sites : ℕ → ℕ) (rs : ℕ → ℝ) (σ σ' : List ℤ),
      runChain T sites rs n σ σ' → spinsValid σ → spinsValid σ' := by
  intro n
  induction n with
  | zero =>
      intro sites rs σ σ' h hs
      rw [runChain_zero_iff.mp h]
      exact hs
  | succ n ih =>
      intro sites rs σ σ' h hs
      obtain ⟨e, τ, hm, hrest⟩ := runChain_succ_iff.mp h
      exact ih _ _ _ _ hrest (spinsValid_mcmoveRel hm hs)

lemma proposalStep_det {L : ℕ} {T : ℝ} {σ : List ℤ} {k : ℕ} {r : ℝ} {σ1 σ2 : List ℤ}
    (h1 : proposalStep L T σ k r σ1) (h2 : proposalStep L T σ k r σ2) : σ1 = σ2 := by
  rcases h1 with ⟨ha1, e1⟩ | ⟨ha1, e1⟩ <;> rcases h2 with ⟨ha2, e2⟩ | ⟨ha2, e2⟩
  · rw [e1, e2]
  · exact absurd ha1 ha2
  · exact absurd ha2 ha1
  · rw [e1, e2]

lemma sweepRel_det {L : ℕ} {T : ℝ} :
    ∀ (n : ℕ) (sites : ℕ → ℕ) (rs : ℕ → ℝ) (σ σ1 σ2 : List ℤ),
      sweepRel L T sites rs n σ σ1 → sweepRel L T sites rs n σ σ2 → σ1 = σ2 := by
  intro n
  induction n with
  | zero =>
      intro sites rs σ σ1 σ2 h1 h2
      rw [sweepRel_zero_iff.mp h1, sweepRel_zero_iff.mp h2]
  | succ n ih =>
      intro sites rs σ σ1 σ2 h1 h2
      obtain ⟨τ1, hs1, hr1⟩ := sweepRel_succ_iff.mp h1
      obtain ⟨τ2, hs2, hr2⟩ := sweepRel_succ_iff.mp h2
      have hτ : τ1 = τ2 := proposalStep_det hs1 hs2
      subst hτ
      exact ih _ _ _ _ _ hr1 hr2

lemma mcmoveRel_det {σ : List ℤ} {T : ℝ} {sites : ℕ → ℕ} {rs : ℕ → ℝ}
    {out1 out2 : Option IsingError × List ℤ} (h1 : mcmoveRel σ T sites rs out1)
    (h2 : mcmoveRel σ T sites rs out2) : out1 = out2 := by
  rcases h1 with ⟨hv1, e1⟩ | ⟨hv1, hT1, e1⟩ | ⟨hv1, hT1, σ1, hs1, e1⟩ <;>
    rcases h2 with ⟨hv2, e2⟩ | ⟨hv2, hT2, e2⟩ | ⟨hv2, hT2, σ2, hs2, e2⟩
  · rw [e1, e2]
  · exact absurd hv2 hv1
  · exact absurd hv2 hv1
  · exact absurd hv1 hv2
  · rw [e1, e2]
  · exact absurd hT2 (not_lt.mpr hT1)
  · exact absurd hv1 hv2
  · exact absurd hT1 (not_lt.mpr hT2)
  · have hσ : σ1 = σ2 := sweepRel_det _ _ _ _ _ _ hs1 hs2
    subst hσ
    rw [e1, e2]

lemma runChain_det {T : ℝ} :
    ∀ (n : ℕ) (sites : ℕ → ℕ) (rs : ℕ → ℝ) (σ σ1 σ2 : List ℤ),
      runChain T sites rs n σ σ1 → runChain T sites rs n σ σ2 → σ1 = σ2 := by
  intro n
  induction n with
  | zero =>
      intro sites rs σ σ1 σ2 h1 h2
      rw [runChain_zero_iff.mp h1, runChain_zero_iff.mp h2]
  | succ n ih =>
      intro sites rs σ σ1 σ2 h1 h2
      obtain ⟨e1, τ1, hm1, hr1⟩ := runChain_succ_iff.mp h1
      obtain ⟨e2, τ2, hm2, hr2⟩ := runChain_succ_iff.mp h2
      have heq := mcmoveRel_det hm1 hm2
      simp only [Prod.mk.injEq] at heq
      obtain ⟨he, hτ⟩ := heq
      subst he
      subst hτ
      exact ih _ _ _ _ _ hr1 hr2

lemma sweepRel_total {L : ℕ} {T : ℝ} :
    ∀ (n : ℕ) (sites : ℕ → ℕ) (rs : ℕ → ℝ) (σ : List ℤ),
      ∃ σ', sweepRel L T sites rs n σ σ' := by
  intro n
  induction n with
  | zero =>
      intro sites rs σ
      exact ⟨σ, sweepRel_zero_iff.mpr rfl⟩
  | succ n ih =>
      intro sites rs σ
      by_cases hacc : accepts T (deltaEAt σ L (sites 0 % (L * L))) (rs 0)
      · obtain ⟨σ', h⟩ := ih (fun m => sites (m + 1)) (fun m => rs (m + 1))
          (flipAt σ (sites 0 % (L * L)))
        exact ⟨σ', sweepRel_succ_iff.mpr ⟨flipAt σ (sites 0 % (L * L)), Or.inl ⟨hacc, rfl⟩, h⟩⟩
      · obtain ⟨σ', h⟩ := ih (fun m => sites (m + 1)) (fun m => rs (m + 1)) σ
        exact ⟨σ', sweepRel_succ_iff.mpr ⟨σ, Or.inr ⟨hacc, rfl⟩, h⟩⟩

lemma sweepRel_congr_streams {L : ℕ} {T : ℝ} :
    ∀ (n : ℕ) (s1 s2 : ℕ → ℕ) (r1 r2 : ℕ → ℝ) (σ σ' : List ℤ),
      (∀ m, m < n → s1 m = s2 m) → (∀ m, m < n → r1 m = r2 m) →
      sweepRel L T s1 r1 n σ σ' → sweepRel L T s2 r2 n σ σ' := by
  intro n
  induction n with
  | zero =>
      intro _ _ _ _ _ _ _ _ h
      exact h
  | succ n ih =>
      intro s1 s2 r1 r2 σ σ' hs hr h
      obtain ⟨τ, hstep, hrest⟩ := sweepRel_succ_iff.mp h
      refine sweepRel_succ_iff.mpr ⟨τ, ?_, ?_⟩
      · rw [← hs 0 (by omega), ← hr 0 (by omega)]
        exact hstep
      · exact ih _ _ _ _ _ _ (fun m hm => hs (m + 1) (by omega))
          (fun m hm => hr (m + 1) (by omega)) hrest

lemma energy_flip_mono {σ : List ℤ} {L k : ℕ} (hL : 1 ≤ L) (hlen : σ.length = L * L)
    (hk : k < L * L) (hs : spinsValid σ) (hd : deltaEAt σ L k ≤ 0) :
    energy (flipAt σ k) L ≤ energy σ L := by
  rcases Nat.lt_or_ge L 2 with h2 | h2
  · have hL1 : L = 1 := by omega
    subst hL1
    have hk0 : k = 0 := by omega
    subst hk0
    obtain ⟨s, hσ⟩ : ∃ s, σ = [s] := List.length_eq_one.mp (by omega)
    subst hσ
    rcases hs s (by simp) with h | h <;> subst h <;>
      rw [deltaEAt_singleton] at hd <;> norm_num at hd
  · rw [energy_flipAt h2 hlen hk]
    have hq : (deltaEAt σ L k : ℚ) ≤ 0 := by exact_mod_cast hd
    linarith

lemma downhillChain_energy_mono {L : ℕ} (hL : 1 ≤ L) :
    ∀ (n : ℕ) (σ σ' : List ℤ), σ.length = L * L → spinsValid σ →
      downhillChain L n σ σ' → energy σ' L ≤ energy σ L := by
  intro n
  induction n with
  | zero =>
      intro σ σ' _ _ h
      rw [downhillChain_zero_iff.mp h]
  | succ n ih =>
      intro σ σ' hlen hs h
      obtain ⟨τ, hstep, hrest⟩ := downhillChain_succ_iff.mp h
      rcases hstep with heq | ⟨k, hk, hd, hflip⟩
      · rw [heq] at hrest
        exact ih σ σ' hlen hs hrest
      · have hk' : k < L * L := by rw [← hlen]; exact hk
        have h1 : energy τ L ≤ energy σ L := by
          rw [hflip]
          exact energy_flip_mono hL hlen hk' hs hd
        have h2 : energy σ' L ≤ energy τ L := by
          apply ih τ σ' ?_ ?_ hrest
          · rw [hflip, length_flipAt, hlen]
          · rw [hflip]
            exact spinsValid_flipAt hs k
        linarith

lemma balance_core (T E : ℝ) (d : ℤ) :
    Real.exp (-(1 / T) * E) *
        (if d ≤ 0 then (1 : ℝ) else Real.exp (-(1 / T) * (d : ℝ))) =
      Real.exp (-(1 / T) * (E + (d : ℝ))) *
        (if -d ≤ 0 then (1 : ℝ) else Real.exp (-(1 / T) * ((-d : ℤ) : ℝ))) := by
  rcases lt_trichotomy d 0 with h | h | h
  · rw [if_pos (le_of_lt h), if_neg (by omega)]
    rw [mul_one, ← Real.exp_add]
    congr 1
    push_cast
    ring
  · subst h
    simp
  · rw [if_neg (by omega), if_pos (by omega)]
    rw [mul_one, ← Real.exp_add]
    congr 1
    push_cast
    ring

lemma accept_prob_tendsto_zero (d : ℤ) (hd : 0 < d) :
    Filter.Tendsto (fun T : ℝ => Real.exp (-(1 / T) * (d : ℝ)))
      (nhdsWithin 0 (Set.Ioi 0)) (nhds 0) := by
  have h1 : Filter.Tendsto (fun T : ℝ => T⁻¹) (nhdsWithin 0 (Set.Ioi 0)) Filter.atTop :=
    tendsto_inv_zero_atTop
  have hd' : (0 : ℝ) < (d : ℝ) := by exact_mod_cast hd
  have h2 : Filter.Tendsto (fun T : ℝ => (d : ℝ) * T⁻¹)
      (nhdsWithin 0 (Set.Ioi 0)) Filter.atTop := h1.const_mul_atTop hd'
  have h3 : Filter.Tendsto (fun T : ℝ => -((d : ℝ) * T⁻¹))
      (nhdsWithin 0 (Set.Ioi 0)) Filter.atBot := Filter.tendsto_neg_atTop_atBot.comp h2
  have h4 := Real.tendsto_exp_atBot.comp h3
  have hfun : (fun T : ℝ => Real.exp (-(1 / T) * (d : ℝ))) =
      fun T : ℝ => Real.exp (-((d : ℝ) * T⁻¹)) := by
    funext T
    congr 1
    ring
  rw [hfun]
  exact h4

/-- C1: for every site proposal at temperature T > 0 with β = 1/T: a proposal
with ΔE ≤ 0 is accepted unconditionally; with ΔE > 0 it is accepted iff the
uniform draw r satisfies r < exp(−β·ΔE); on acceptance the site's spin is
negated in place (all other entries and the length unchanged), and on
rejection the lattice is left unchanged. -/
theorem spec_C1_metropolis_rule (L : ℕ) (T : ℝ) (σ : List ℤ) (k : ℕ) (r : ℝ)
    (hT : 0 < T) (hk : k < σ.length) :
    (deltaEAt σ L k ≤ 0 → ∀ σ', proposalStep L T σ k r σ' ↔ σ' = flipAt σ k) ∧
    (0 < deltaEAt σ L k → ∀ σ', proposalStep L T σ k r σ' ↔
      ((r < Real.exp (-(1 / T) * (deltaEAt σ L k : ℝ)) ∧ σ' = flipAt σ k) ∨
        (¬ r < Real.exp (-(1 / T) * (deltaEAt σ L k : ℝ)) ∧ σ' = σ))) ∧
    (flipAt σ k).getD k 0 = -(σ.getD k 0) ∧
    (∀ m, m ≠ k → (flipAt σ k).getD m 0 = σ.getD m 0) ∧
    (flipAt σ k).length = σ.length := by
  refine ⟨?_, ?_, getD_flipAt_self hk, fun m hm => getD_flipAt_ne (Ne.symm hm),
    length_flipAt σ k⟩
  · intro hd σ'
    unfold proposalStep accepts
    constructor
    · rintro (⟨_, h⟩ | ⟨hna, _⟩)
      · exact h
      · exact absurd (Or.inl hd) hna
    · intro h
      exact Or.inl ⟨Or.inl hd, h⟩
  · intro hd σ'
    unfold proposalStep accepts
    constructor
    · rintro (⟨hacc, h⟩ | ⟨hna, h⟩)
      · rcases hacc with h1 | h1
        · omega
        · exact Or.inl ⟨h1, h⟩
      · refine Or.inr ⟨?_, h⟩
        intro hr
        exact hna (Or.inr hr)
    · rintro (⟨hr, h⟩ | ⟨hnr, h⟩)
      · exact Or.inl ⟨Or.inr hr, h⟩
      · refine Or.inr ⟨?_, h⟩
        rintro (h1 | h1)
        · omega
        · exact hnr h1

/-- Witness for C1 at a concrete input: on the 2×2 lattice [1,1,1,−1], the
proposal at flat site 3 has ΔE = −8 ≤ 0 and is accepted unconditionally,
negating that site in place. -/
theorem spec_C1_witness :
    (0 : ℝ) < 1 ∧ 3 < ([1, 1, 1, -1] : List ℤ).length ∧
      deltaEAt [1, 1, 1, -1] 2 3 ≤ 0 ∧
      proposalStep 2 1 [1, 1, 1, -1] 3 0 (flipAt [1, 1, 1, -1] 3) :=
  ⟨by norm_num, by decide, by decide,
    ((spec_C1_metropolis_rule 2 1 [1, 1, 1, -1] 3 0 (by norm_num) (by decide)).1
      (by decide) (flipAt [1, 1, 1, -1] 3)).mpr rfl⟩

/-- C2: for every L ≥ 1 and every site (i, j) of the L×L lattice, the local
energy change used in the acceptance test equals 2·spin(i,j)·S, where S is
the sum of the four periodic-boundary neighbor spins with row and column
indices taken modulo L (stated with explicit integer modulo arithmetic). -/
theorem spec_C2_deltaE_periodic (σ : List ℤ) (L i j : ℕ) (hL : 1 ≤ L)
    (hi : i < L) (hj : j < L) :
    deltaE σ L i j = 2 * spinAt σ L i j * nbSumSpec σ L i j := by
  unfold deltaE nbSum nbSumSpec
  rw [intModIdx_sub_one hL hi, intModIdx_add_one hL hi,
    intModIdx_sub_one hL hj, intModIdx_add_one hL hj]

/-- Witness for C2: the L = 2 corner site (0,0) of [1,1,1,−1]; the
hand-computed neighbor sum by explicit modulo arithmetic is 4
(each axis wraps, so both vertical neighbors are spin(1,0) and both
horizontal neighbors are spin(0,1)), giving ΔE = 2·1·4 = 8. -/
theorem spec_C2_witness :
    (1 : ℕ) ≤ 2 ∧
      deltaE [1, 1, 1, -1] 2 0 0 = 2 * spinAt [1, 1, 1, -1] 2 0 0 * nbSumSpec [1, 1, 1, -1] 2 0 0 ∧
      deltaE [1, 1, 1, -1] 2 0 0 = 8 :=
  ⟨by decide, spec_C2_deltaE_periodic [1, 1, 1, -1] 2 0 0 (by decide) (by decide) (by decide),
    by decide⟩

/-- C3: spin-domain invariant: for every temperature T > 0 and every lattice
whose elements all lie in {+1, −1}, after any number of consecutive calls to
the sweep driver every lattice element still lies in {+1, −1}. -/
theorem spec_C3_spin_invariant (T : ℝ) (sites : ℕ → ℕ) (rs : ℕ → ℝ) (n : ℕ)
    (σ σ' : List ℤ) (hT : 0 < T) (hs : spinsValid σ)
    (hrun : runChain T sites rs n σ σ') : spinsValid σ' :=
  spinsValid_runChain n sites rs σ σ' hrun hs

/-- Witness for C3 at a concrete input (zero consecutive calls on [1]). -/
theorem spec_C3_witness :
    (0 : ℝ) < 1 ∧ spinsValid ([1] : List ℤ) ∧ spinsValid ([1] : List ℤ) :=
  ⟨by norm_num, by decide,
    spec_C3_spin_invariant 1 (fun _ => 0) (fun _ => 0) 0 [1] [1] (by norm_num) (by decide) rfl⟩

/-- C4: the two preconditions are checked at call entry, before any lattice
mutation: a buffer length that is not a perfect square ≥ 1 is reported as
InvalidSize, and (with a valid size) temperature ≤ 0 is reported as
InvalidTemperature; in every rejected call the lattice is returned
byte-for-byte unchanged (all-or-nothing at call granularity). -/
theorem spec_C4_precondition_rejection (σ : List ℤ) (T : ℝ)
    (sites : ℕ → ℕ) (rs : ℕ → ℝ) :
    (¬ validSize σ.length →
      ∀ out, mcmoveRel σ T sites rs out ↔ out = (some IsingError.InvalidSize, σ)) ∧
    (validSize σ.length → T ≤ 0 →
      ∀ out, mcmoveRel σ T sites rs out ↔ out = (some IsingError.InvalidTemperature, σ)) := by
  constructor
  · intro hv out
    unfold mcmoveRel
    constructor
    · rintro (⟨_, h⟩ | ⟨hval, _, _⟩ | ⟨hval, _, _⟩)
      · exact h
      · exact absurd hval hv
      · exact absurd hval hv
    · intro h
      exact Or.inl ⟨hv, h⟩
  · intro hv hT out
    unfold mcmoveRel
    constructor
    · rintro (⟨hnv, _⟩ | ⟨_, _, h⟩ | ⟨_, hT', _⟩)
      · exact absurd hv hnv
      · exact h
      · exact absurd hT' (not_lt.mpr hT)
    · intro h
      exact Or.inr (Or.inl ⟨hv, hT, h⟩)

/-- Witness for C4 at the spec's concrete inputs: a buffer of length 5 is
rejected as InvalidSize, and temperatures 0 and −1 are rejected as
InvalidTemperature, the lattice unchanged in each case. -/
theorem spec_C4_witness :
    ¬ validSize ([1, 1, 1, 1, 1] : List ℤ).length ∧
    mcmoveRel [1, 1, 1, 1, 1] 1 (fun _ => 0) (fun _ => 0)
      (some IsingError.InvalidSize, [1, 1, 1, 1, 1]) ∧
    validSize ([1, -1, 1, -1] : List ℤ).length ∧
    mcmoveRel [1, -1, 1, -1] 0 (fun _ => 0) (fun _ => 0)
      (some IsingError.InvalidTemperature, [1, -1, 1, -1]) ∧
    mcmoveRel [1, -1, 1, -1] (-1) (fun _ => 0) (fun _ => 0)
      (some IsingError.InvalidTemperature, [1, -1, 1, -1]) :=
  ⟨by norm_num [validSize],
    ((spec_C4_precondition_rejection [1, 1, 1, 1, 1] 1 (fun _ => 0) (fun _ => 0)).1
      (by norm_num [validSize]) _).mpr rfl,
    by norm_num [validSize],
    ((spec_C4_precondition_rejection [1, -1, 1, -1] 0 (fun _ => 0) (fun _ => 0)).2
      (by norm_num [validSize]) (le_refl 0) _).mpr rfl,
    ((spec_C4_precondition_rejection [1, -1, 1, -1] (-1) (fun _ => 0) (fun _ => 0)).2
      (by norm_num [validSize]) (by norm_num) _).mpr rfl⟩

/-- C5: every valid call (perfect-square buffer, T > 0) terminates with a
successful (error-free) result; a successful result is exactly a sweep of
L² = buffer-length consecutive proposals, no more and no fewer, and the call
depends on no RNG draw beyond the first L² of each stream. -/
theorem spec_C5_termination (σ : List ℤ) (T : ℝ) (sites : ℕ → ℕ) (rs : ℕ → ℝ)
    (hv : validSize σ.length) (hT : 0 < T) :
    (∃ σ', mcmoveRel σ T sites rs (none, σ')) ∧
    (∀ out, mcmoveRel σ T sites rs out → out.1 = none) ∧
    (∀ σ', mcmoveRel σ T sites rs (none, σ') ↔
      sweepRel (Nat.sqrt σ.length) T sites rs σ.length σ σ') ∧
    (∀ (sites' : ℕ → ℕ) (rs' : ℕ → ℝ) out,
      (∀ m, m < σ.length → sites m = sites' m) → (∀ m, m < σ.length → rs m = rs' m) →
      mcmoveRel σ T sites rs out → mcmoveRel σ T sites' rs' out) := by
  refine ⟨?_, ?_, ?_, ?_⟩
  · obtain ⟨σ', h⟩ := sweepRel_total σ.length sites rs σ
    exact ⟨σ', Or.inr (Or.inr ⟨hv, hT, σ', h, rfl⟩)⟩
  · intro out h
    rcases h with ⟨hnv, _⟩ | ⟨_, hT', _⟩ | ⟨_, _, σ'', _, hout⟩
    · exact absurd hv hnv
    · exact absurd hT (not_lt.mpr hT')
    · rw [hout]
  · intro σ'
    constructor
    · rintro (⟨hnv, _⟩ | ⟨_, hT', _⟩ | ⟨_, _, σ'', hsw, hout⟩)
      · exact absurd hv hnv
      · exact absurd hT (not_lt.mpr hT')
      · simp only [Prod.mk.injEq] at hout
        rw [hout.2]
        exact hsw
    · intro h
      exact Or.inr (Or.inr ⟨hv, hT, σ', h, rfl⟩)
  · intro sites' rs' out hs hr h
    rcases h with ⟨hnv, _⟩ | ⟨_, hT', _⟩ | ⟨_, _, σ'', hsw, hout⟩
    · exact absurd hv hnv
    · exact absurd hT (not_lt.mpr hT')
    · exact Or.inr (Or.inr ⟨hv, hT, σ'',
        sweepRel_congr_streams σ.length sites sites' rs rs' σ σ'' hs hr hsw, hout⟩)

/-- Witness for C5 at a concrete input: the valid call on [1] at T = 1
terminates with an error-free result. -/
theorem spec_C5_witness :
    validSize ([1] : List ℤ).length ∧ (0 : ℝ) < 1 ∧
      ∃ σ', mcmoveRel [1] 1 (fun _ => 0) (fun _ => 0) (none, σ') :=
  ⟨by norm_num [validSize], by norm_num,
    (spec_C5_termination [1] 1 (fun _ => 0) (fun _ => 0) (by norm_num [validSize])
      (by norm_num)).1⟩

/-- C6: determinism under fixed seed: two runs with identical initial
lattice contents, identical temperature, identical RNG streams and the same
number of consecutive sweep calls produce bit-identical final lattices. -/
theorem spec_C6_determinism (T : ℝ) (sites : ℕ → ℕ) (rs : ℕ → ℝ) (n : ℕ)
    (σ σ1 σ2 : List ℤ) (h1 : runChain T sites rs n σ σ1)
    (h2 : runChain T sites rs n σ σ2) : σ1 = σ2 :=
  runChain_det n sites rs σ σ1 σ2 h1 h2

/-- Witness for C6 at a concrete input (one rejected call on a buffer of
length 5 in each of the two runs). -/
theorem spec_C6_witness : ([1, 1, 1, 1, 1] : List ℤ) = [1, 1, 1, 1, 1] :=
  spec_C6_determinism 1 (fun _ => 0) (fun _ => 0) 1 [1, 1, 1, 1, 1] [1, 1, 1, 1, 1]
    [1, 1, 1, 1, 1]
    (runChain_succ_iff.mpr ⟨some IsingError.InvalidSize, [1, 1, 1, 1, 1],
      Or.inl ⟨by norm_num [validSize], rfl⟩, rfl⟩)
    (runChain_succ_iff.mpr ⟨some IsingError.InvalidSize, [1, 1, 1, 1, 1],
      Or.inl ⟨by norm_num [validSize], rfl⟩, rfl⟩)

/-- C8: in the zero-temperature limit the acceptance probability
exp(−β·ΔE) of any ΔE > 0 move tends to 0 as T → 0⁺; and in a sweep in which
only ΔE ≤ 0 moves are accepted the total lattice energy
Σ −spin·(neighbor sum)/2 is monotonically non-increasing — each accepted
flip decreases it or leaves it equal, and no such sweep increases it. -/
theorem spec_C8_zero_temperature (L : ℕ) (hL : 1 ≤ L) :
    (∀ d : ℤ, 0 < d →
      Filter.Tendsto (fun T : ℝ => Real.exp (-(1 / T) * (d : ℝ)))
        (nhdsWithin 0 (Set.Ioi 0)) (nhds 0)) ∧
    (∀ (σ : List ℤ) (k : ℕ), σ.length = L * L → spinsValid σ → k < L * L →
      deltaEAt σ L k ≤ 0 → energy (flipAt σ k) L ≤ energy σ L) ∧
    (∀ (n : ℕ) (σ σ' : List ℤ), σ.length = L * L → spinsValid σ →
      downhillChain L n σ σ' → energy σ' L ≤ energy σ L) :=
  ⟨fun d hd => accept_prob_tendsto_zero d hd,
    fun σ k hlen hs hk hd => energy_flip_mono hL hlen hk hs hd,
    fun n σ σ' hlen hs h => downhillChain_energy_mono hL n σ σ' hlen hs h⟩

/-- Witness for C8 at concrete inputs: the ΔE = −8 flip at site 3 of the
2×2 lattice [1,1,1,−1] does not increase the energy, and the acceptance
probability of a ΔE = 1 move tends to 0 as T → 0⁺. -/
theorem spec_C8_witness :
    deltaEAt [1, 1, 1, -1] 2 3 ≤ 0 ∧
    energy (flipAt [1, 1, 1, -1] 3) 2 ≤ energy [1, 1, 1, -1] 2 ∧
    Filter.Tendsto (fun T : ℝ => Real.exp (-(1 / T) * ((1 : ℤ) : ℝ)))
      (nhdsWithin 0 (Set.Ioi 0)) (nhds 0) :=
  ⟨by decide,
    (spec_C8_zero_temperature 2 (by decide)).2.1 [1, 1, 1, -1] 3 (by decide) (by decide)
      (by decide) (by decide),
    (spec_C8_zero_temperature 2 (by decide)).1 1 (by decide)⟩

/-- C10: the per-site Metropolis update (symmetric single-spin-flip
proposal selected with probability 1/L², accept if ΔE ≤ 0, else accept with
probability exp(−β·ΔE)) satisfies detailed balance with respect to the
Boltzmann weight exp(−E/T), for every T > 0 and every lattice size L. -/
theorem spec_C10_detailed_balance (L : ℕ) (σ : List ℤ) (T : ℝ) (k : ℕ)
    (hL : 1 ≤ L) (hlen : σ.length = L * L) (hs : spinsValid σ) (hk : k < L * L)
    (hT : 0 < T) :
    Real.exp (-(1 / T) * ((energy σ L : ℚ) : ℝ)) *
        (if deltaEAt σ L k ≤ 0 then (1 : ℝ)
          else Real.exp (-(1 / T) * ((deltaEAt σ L k : ℤ) : ℝ))) *
        ((1 : ℝ) / ((L : ℝ) * (L : ℝ))) =
      Real.exp (-(1 / T) * ((energy (flipAt σ k) L : ℚ) : ℝ)) *
        (if deltaEAt (flipAt σ k) L k ≤ 0 then (1 : ℝ)
          else Real.exp (-(1 / T) * ((deltaEAt (flipAt σ k) L k : ℤ) : ℝ))) *
        ((1 : ℝ) / ((L : ℝ) * (L : ℝ))) := by
  rcases Nat.lt_or_ge L 2 with h2 | h2
  · have hL1 : L = 1 := by omega
    subst hL1
    have hk0 : k = 0 := by omega
    subst hk0
    obtain ⟨s, hσ⟩ : ∃ s, σ = [s] := List.length_eq_one.mp (by omega)
    subst hσ
    have hflip : flipAt [s] 0 = [-s] := rfl
    rw [hflip]
    have hd2 : deltaEAt [-s] 1 0 = 8 * s * s := by
      rw [deltaEAt_singleton]
      ring
    have he2 : energy [-s] 1 = energy [s] 1 := by
      unfold energy
      rw [energyTwice_singleton, energyTwice_singleton]
      push_cast
      ring_nf
    rw [deltaEAt_singleton, hd2, he2]
  · have hrev : deltaEAt (flipAt σ k) L k = -(deltaEAt σ L k) :=
      deltaEAt_flipAt h2 hlen hk
    have hE : energy (flipAt σ k) L = energy σ L + ((deltaEAt σ L k : ℤ) : ℚ) :=
      energy_flipAt h2 hlen hk
    rw [hrev, hE, Rat.cast_add, Rat.cast_intCast,
      balance_core T ((energy σ L : ℚ) : ℝ) (deltaEAt σ L k)]

/-- Witness for C10 at a concrete input: detailed balance at the single
site of the 1×1 lattice [1] at T = 1. -/
theorem spec_C10_witness :
    spinsValid ([1] : List ℤ) ∧ (0 : ℝ) < 1 ∧
    (Real.exp (-(1 / (1 : ℝ)) * ((energy [1] 1 : ℚ) : ℝ)) *
        (if deltaEAt [1] 1 0 ≤ 0 then (1 : ℝ)
          else Real.exp (-(1 / (1 : ℝ)) * ((deltaEAt [1] 1 0 : ℤ) : ℝ))) *
        ((1 : ℝ) / (((1 : ℕ) : ℝ) * ((1 : ℕ) : ℝ))) =
      Real.exp (-(1 / (1 : ℝ)) * ((energy (flipAt [1] 0) 1 : ℚ) : ℝ)) *
        (if deltaEAt (flipAt [1] 0) 1 0 ≤ 0 then (1 : ℝ)
          else Real.exp (-(1 / (1 : ℝ)) * ((deltaEAt (flipAt [1] 0) 1 0 : ℤ) : ℝ))) *
        ((1 : ℝ) / (((1 : ℕ) : ℝ) * ((1 : ℕ) : ℝ)))) :=
  ⟨by decide, by norm_num,
    spec_C10_detailed_balance 1 [1] 1 0 (by decide) (by decide) (by decide) (by decide)
      (by norm_num)⟩

end Ising
